import Mathlib

/-!
Verification development for the ghosttype suggestion engine.

The definitions below are shallow embeddings of the Go source:

* string helpers embed the library calls strings.TrimSpace, strings.Fields,
  strings.HasPrefix and friends on the ASCII range actually exercised;
* the ensemble scheduler (internal/model/ensemble/model.go), the Markov,
  alias and embedding predictors, the history store (internal/store/history.go)
  and the history worker (internal/worker/history.go) are embedded as pure
  functions; external effects (the SQL database, the embedding service,
  statement failures) are explicit parameters;
* float64 scores are embedded as exact rationals, goroutine fan-out/join is
  embedded as a fold in registration order (score addition is commutative, so
  the merged map does not depend on completion order once every task finishes),
  and the unspecified iteration order of a Go map is a quantified entry list.
-/

namespace Ghosttype

/-- ASCII fragment of Go unicode.IsSpace: space, tab, newline, vertical tab,
form feed, carriage return.  The multi-byte Unicode space classes are not
exercised by any claim. -/
def isSpace (c : Char) : Bool :=
  c = ' ' || c = '\t' || c = '\n' || c = '\r' || c = Char.ofNat 11 || c = Char.ofNat 12

/-- Go strings.TrimSpace on the character list of a string: drop whitespace
from the front, then from the back. -/
def trimCharList (l : List Char) : List Char :=
  ((l.dropWhile isSpace).reverse.dropWhile isSpace).reverse

/-- Go strings.TrimSpace. -/
def trimSpace (s : String) : String :=
  String.mk (trimCharList s.data)

/-- Accumulator-style splitter behind the goFields embedding: split a character
list around runs of whitespace. -/
def fieldsAux (acc : List Char) : List Char → List (List Char)
  | [] => if acc.isEmpty then [] else [acc.reverse]
  | c :: cs =>
    if isSpace c then
      if acc.isEmpty then fieldsAux [] cs else acc.reverse :: fieldsAux [] cs
    else
      fieldsAux (c :: acc) cs

/-- Go strings.Fields: the whitespace-separated tokens of a string, in order,
with no empty tokens. -/
def goFields (s : String) : List String :=
  (fieldsAux [] s.data).map String.mk

/-- Number of bytes of the UTF-8 encoding of one character, as Go counts them
in len(string). -/
def charBytes (c : Char) : Nat :=
  if c.toNat < 0x80 then 1
  else if c.toNat < 0x800 then 2
  else if c.toNat < 0x10000 then 3
  else 4

/-- Go len(s) on a string: the byte length of its UTF-8 encoding. -/
def byteLen (s : String) : Nat :=
  s.data.foldl (fun n c => n + charBytes c) 0

/-- Number of occurrences of a character in a string (Go strings.Count with a
one-character separator). -/
def countChar (s : String) (c : Char) : Nat :=
  (s.data.filter (fun x => x = c)).length

/-- Go strings.HasPrefix on character lists. -/
def hasPrefixChars (s pre : List Char) : Bool :=
  pre.isPrefixOf s

/-- Go strings.HasSuffix on character lists. -/
def hasSuffixChars (s suf : List Char) : Bool :=
  suf.isSuffixOf s

/-- Go strings.Contains for a single character. -/
def containsChar (s : List Char) (c : Char) : Bool :=
  s.contains c

section TrimLemmas

/-- Dropping while a predicate holds is idempotent. -/
theorem dropWhile_idem (p : Char → Bool) (l : List Char) :
    (l.dropWhile p).dropWhile p = l.dropWhile p := by
  induction l with
  | nil => rfl
  | cons a t ih =>
    by_cases h : p a
    · simp [List.dropWhile_cons, h, ih]
    · simp [List.dropWhile_cons, h]

/-- The head of a dropWhile result does not satisfy the predicate. -/
theorem head_dropWhile_false (p : Char → Bool) (l : List Char) (a : Char)
    (h : (l.dropWhile p).head? = some a) : p a = false := by
  induction l with
  | nil => simp [List.dropWhile] at h
  | cons x t ih =>
    by_cases hx : p x
    · simp [List.dropWhile_cons, hx] at h
      exact ih h
    · simp [List.dropWhile_cons, hx] at h
      subst h
      simpa using hx

/-- If the last element of a list does not satisfy the predicate, dropWhile
keeps that last element. -/
theorem getLast_dropWhile (p : Char → Bool) (l : List Char) (a : Char)
    (hl : l.getLast? = some a) (ha : p a = false) :
    (l.dropWhile p).getLast? = some a := by
  induction l with
  | nil => simp at hl
  | cons x t ih =>
    by_cases hx : p x
    · cases t with
      | nil =>
        simp at hl
        subst hl
        rw [hx] at ha
        cases ha
      | cons y u =>
        rw [List.getLast?_cons_cons] at hl
        have := ih hl
        simpa [List.dropWhile_cons, hx] using this
    · simp [List.dropWhile_cons, hx]
      cases t with
      | nil => simpa using hl
      | cons y u =>
        rw [List.getLast?_cons_cons] at hl
        rw [List.getLast?_cons_cons]
        exact hl

/-- A list whose two ends do not satisfy the predicate. -/
def TrimmedEnds (p : Char → Bool) (l : List Char) : Prop :=
  (∀ a, l.head? = some a → p a = false) ∧ (∀ a, l.getLast? = some a → p a = false)

/-- trimCharList produces a list that is trimmed at both ends. -/
theorem trimCharList_trimmedEnds (l : List Char) :
    TrimmedEnds isSpace (trimCharList l) := by
  unfold trimCharList
  set A := l.dropWhile isSpace with hA
  set B := A.reverse.dropWhile isSpace with hB
  constructor
  · intro a h
    rw [List.head?_reverse] at h
    cases hAe : A with
    | nil =>
      rw [hAe] at hB
      simp [hB, List.dropWhile] at h
    | cons x t =>
      have hx : isSpace x = false := by
        apply head_dropWhile_false isSpace l
        rw [← hA, hAe]
        rfl
      have hlast : A.reverse.getLast? = some x := by
        rw [List.getLast?_reverse, hAe]
        rfl
      have := getLast_dropWhile isSpace A.reverse x hlast hx
      rw [← hB] at this
      rw [this] at h
      cases h
      exact hx
  · intro a h
    rw [List.getLast?_reverse] at h
    exact head_dropWhile_false isSpace A.reverse a h

/-- dropWhile is the identity on a list whose head does not satisfy the
predicate. -/
theorem dropWhile_of_head_false (p : Char → Bool) (l : List Char)
    (h : ∀ a, l.head? = some a → p a = false) : l.dropWhile p = l := by
  cases l with
  | nil => rfl
  | cons x t =>
    have hx := h x rfl
    simp [List.dropWhile_cons, hx]

/-- trimCharList is the identity on a list that is already trimmed. -/
theorem trimCharList_of_trimmedEnds (l : List Char)
    (h : TrimmedEnds isSpace l) : trimCharList l = l := by
  unfold trimCharList
  rw [dropWhile_of_head_false isSpace l h.1]
  have : l.reverse.dropWhile isSpace = l.reverse := by
    apply dropWhile_of_head_false
    intro a ha
    rw [List.head?_reverse] at ha
    exact h.2 a ha
  rw [this, List.reverse_reverse]

/-- trimming a character list twice is the same as trimming it once. -/
theorem trimCharList_idem (l : List Char) :
    trimCharList (trimCharList l) = trimCharList l :=
  trimCharList_of_trimmedEnds _ (trimCharList_trimmedEnds l)

/-- trimSpace is idempotent. -/
theorem trimSpace_idem (s : String) : trimSpace (trimSpace s) = trimSpace s := by
  unfold trimSpace
  rw [show (String.mk (trimCharList s.data)).data = trimCharList s.data from rfl]
  rw [trimCharList_idem]

end TrimLemmas

/-!
Data model (internal/model/entity/suggest.go).  Go float64 scores are embedded
as exact rationals.
-/

/-- entity.Suggestion: the value passed between predictors and the scheduler. -/
structure Suggestion where
  text : String
  source : String
  score : ℚ
deriving DecidableEq, Repr

/-- entity.SuggestModel, restricted to the operations the claims exercise:
Predict (fallible) and Weight.  Learn is embedded separately where needed. -/
structure SuggestModel where
  predict : String → Except String (List Suggestion)
  weight : ℚ

instance exceptDecEq {ε α : Type} [DecidableEq ε] [DecidableEq α] :
    DecidableEq (Except ε α) := fun a b =>
  match a, b with
  | .ok x, .ok y =>
    if h : x = y then isTrue (by rw [h])
    else isFalse (fun hh => by cases hh; exact h rfl)
  | .error x, .error y =>
    if h : x = y then isTrue (by rw [h])
    else isFalse (fun hh => by cases hh; exact h rfl)
  | .ok _, .error _ => isFalse (fun hh => by cases hh)
  | .error _, .ok _ => isFalse (fun hh => by cases hh)

/-!
Score accumulation and ranking (internal/model/ensemble/model.go).

The Go score map is embedded as an association list kept in first-seen key
order; addScore embeds scoreMap[s.Text] += s.Score * weight.  Go does not
specify an iteration order for maps, so functions that iterate the map
(rankSuggestions) take the entry list — one possible iteration order — as
their argument, and theorems about iteration-order-independent facts quantify
over that list.
-/

/-- One possible iteration order of a Go score map: any entry list.  Keys are
suggestion texts, values merged weighted scores. -/
abbrev ScoreMap := List (String × ℚ)

/-- scoreMap[text] += v, preserving first-seen key order. -/
def addScore (sm : ScoreMap) (text : String) (v : ℚ) : ScoreMap :=
  match sm with
  | [] => [(text, v)]
  | (t, s) :: rest =>
    if t = text then (t, s + v) :: rest else (t, s) :: addScore rest text v

/-- The merge loop of Ensemble.Predict and the tier executors:
for each suggestion s, scoreMap[s.Text] += s.Score * weight. -/
def mergeSuggestions (sm : ScoreMap) (w : ℚ) (suggs : List Suggestion) : ScoreMap :=
  suggs.foldl (fun acc s => addScore acc s.text (s.score * w)) sm

/-- Insertion step of the embedded sort: place x before the first element whose
key is strictly smaller (descending order, stable on ties with respect to the
given entry order).  sort.Slice in the source is not stable, but since the
entry order fed to it is itself an arbitrary map iteration order, every tie
order is already reachable through the entry list. -/
def insertDescKey {α K : Type} [LinearOrder K] (key : α → K) (x : α) :
    List α → List α
  | [] => [x]
  | y :: ys => if key y ≤ key x then x :: y :: ys else y :: insertDescKey key x ys

/-- Insertion sort by strictly descending key, embedding
sort.Slice(rankedList, less = Score_i greater than Score_j). -/
def sortDescKey {α K : Type} [LinearOrder K] (key : α → K) : List α → List α
  | [] => []
  | x :: xs => insertDescKey key x (sortDescKey key xs)

/-- Ensemble.rankSuggestions (and the identical ranking tail of
Ensemble.Predict): iterate the score map, sort by descending score, and build
suggestions whose Source is the Go zero value empty string. -/
def rankSuggestions (entries : ScoreMap) : List Suggestion :=
  (sortDescKey (fun e => e.2) entries).map
    (fun e => { text := e.1, source := "", score := e.2 })

/-!
Ensemble.Predict (one-shot).  The errgroup fan-out is embedded as a fold in
registration order: score addition is commutative, so when every task succeeds
the merged map is independent of completion order; when some task returns an
error, g.Wait() returns a non-nil error and Predict returns (nil, err) — which
error wins the race is scheduling-dependent, but the embedding keeps the first
one in registration order.  The two-second deadline is not part of the
embedding (no predictor here blocks).
-/

/-- One step of the accumulation in Ensemble.Predict: an error, once seen,
wins g.Wait(); otherwise a predictor error replaces the accumulated map and a
success merges its weighted suggestions. -/
def allStep (input : String) (acc : Except String ScoreMap) (m : SuggestModel) :
    Except String ScoreMap :=
  match acc with
  | .error e => .error e
  | .ok sm =>
    match m.predict input with
    | .error e => .error e
    | .ok suggs => .ok (mergeSuggestions sm m.weight suggs)

/-- Accumulation phase of Ensemble.Predict: merge every model's weighted
suggestions; a predictor error makes the whole call fail. -/
def accumAll (models : List SuggestModel) (input : String) :
    Except String ScoreMap :=
  models.foldl (allStep input) (.ok [])

/-- Ensemble.Predict: accumulate, then rank.  The ranked output shown here is
the one for the map iteration order that coincides with first-seen order;
iteration-order-sensitive facts are stated against rankSuggestions directly. -/
def ensemblePredict (models : List SuggestModel) (input : String) :
    Except String (List Suggestion) :=
  match accumAll models input with
  | .error e => .error e
  | .ok sm => .ok (rankSuggestions sm)

/-- One step of the tier accumulation: a predictor error contributes nothing,
a success merges its weighted suggestions. -/
def swallowStep (input : String) (sm : ScoreMap) (m : SuggestModel) : ScoreMap :=
  match m.predict input with
  | .error _ => sm
  | .ok suggs => mergeSuggestions sm m.weight suggs

/-- Accumulation phase of executeLightModels / executeHeavyModels: the return
value of g.Wait() is discarded, so a predictor error contributes nothing and
the successful predictors' suggestions are merged. -/
def accumSwallow (models : List SuggestModel) (input : String) : ScoreMap :=
  models.foldl (swallowStep input) []

/-- executeLightModels / executeHeavyModels: merge into a score map that starts
empty (fresh for each tier) and rank. -/
def executeTier (models : List SuggestModel) (input : String) : List Suggestion :=
  rankSuggestions (accumSwallow models input)

/-- Ensemble.NextPredict: the goroutine body is sequential — emit the light
tier if the light list is non-empty, then the heavy tier if the heavy list is
non-empty, then close the channel.  The value is the sequence of emissions in
channel order. -/
def nextPredictEmissions (light heavy : List SuggestModel) (input : String) :
    List (List Suggestion) :=
  (if light.isEmpty then [] else [executeTier light input]) ++
    (if heavy.isEmpty then [] else [executeTier heavy input])

section SortLemmas

variable {α K : Type} [LinearOrder K] (key : α → K)

/-- insertDescKey inserts: the result is a permutation of x :: l. -/
theorem insertDescKey_perm (x : α) (l : List α) :
    List.Perm (insertDescKey key x l) (x :: l) := by
  induction l with
  | nil => simp [insertDescKey]
  | cons y ys ih =>
    by_cases hy : key y ≤ key x
    · rw [insertDescKey, if_pos hy]
    · rw [insertDescKey, if_neg hy]
      exact List.Perm.trans (List.Perm.cons y ih) (List.Perm.swap x y ys)

/-- Inserting into a descending-sorted list keeps it descending-sorted. -/
theorem insertDescKey_pairwise (x : α) (l : List α)
    (h : List.Pairwise (fun a b => key b ≤ key a) l) :
    List.Pairwise (fun a b => key b ≤ key a) (insertDescKey key x l) := by
  induction l with
  | nil => simp [insertDescKey]
  | cons y ys ih =>
    rw [List.pairwise_cons] at h
    by_cases hxy : key y ≤ key x
    · rw [insertDescKey, if_pos hxy]
      refine List.Pairwise.cons ?_ (List.Pairwise.cons h.1 h.2)
      intro b hb
      cases hb with
      | head => exact hxy
      | tail _ hb => exact le_trans (h.1 b hb) hxy
    · rw [insertDescKey, if_neg hxy]
      refine List.Pairwise.cons ?_ (ih h.2)
      intro b hb
      have hmem : b = x ∨ b ∈ ys := by
        have := (insertDescKey_perm key x ys).mem_iff.mp hb
        simpa using this
      cases hmem with
      | inl hbx =>
        subst hbx
        exact le_of_lt (not_le.mp hxy)
      | inr hby => exact h.1 b hby

/-- sortDescKey sorts by non-increasing key. -/
theorem sortDescKey_pairwise (l : List α) :
    List.Pairwise (fun a b => key b ≤ key a) (sortDescKey key l) := by
  induction l with
  | nil => simp [sortDescKey]
  | cons x xs ih => exact insertDescKey_pairwise key x _ ih

/-- sortDescKey permutes its input. -/
theorem sortDescKey_perm (l : List α) : List.Perm (sortDescKey key l) l := by
  induction l with
  | nil => exact List.Perm.refl _
  | cons x xs ih =>
    exact List.Perm.trans (insertDescKey_perm key x _) (List.Perm.cons x ih)

end SortLemmas

/-!
Markov predictor (package markov, MarkovModel).  The transition table
transitions[a][b] = count is embedded as an association list whose inner list
order stands for the iteration order of the inner Go map.
-/

/-- MarkovModel.Transitions. -/
abbrev Transitions := List (String × List (String × Nat))

/-- Error message of MarkovModel.Predict for a tokenless input. -/
def markovErrorMsg : String := "input is empty or contains only whitespace"

/-- MarkovModel.Weight(). -/
def markovWeight : ℚ := 2/5

/-- MarkovModel.Predict: tokenize; an empty token list is an error; an unseen
or empty successor map gives an empty list; otherwise one suggestion per
successor token, text TrimSpace(input) ++ one space ++ token, score the raw
transition count, sorted by descending count, source markov. -/
def markovPredict (trans : Transitions) (input : String) :
    Except String (List Suggestion) :=
  match (goFields input).getLast? with
  | none => .error markovErrorMsg
  | some lastTok =>
    match List.lookup lastTok trans with
    | none => .ok []
    | some nextMap =>
      if nextMap.isEmpty then .ok []
      else
        .ok ((sortDescKey (fun p => p.2) nextMap).map (fun p =>
          { text := trimSpace input ++ " " ++ p.1
            source := "markov"
            score := (p.2 : ℚ) }))

/-- The Markov predictor as an ensemble member. -/
def markovModel (trans : Transitions) : SuggestModel :=
  { predict := markovPredict trans, weight := markovWeight }

/-!
Alias predictor (SQLAliasStore.QueryAliases and AliasModel.Predict).

The SQL text of QueryAliases is
  SELECT name, cmd FROM aliases WHERE name LIKE ? OR cmd LIKE ?
  ORDER BY updated_at DESC LIMIT 10
and the Go call supplies a single argument, input ++ percent, for its two
placeholders.  The libsql driver does not report a parameter count, so the
second placeholder stays unbound and SQLite evaluates it as NULL — the
repository's own store test (TestSQLAliasStore_QueryAliases) passes on exactly
this behavior.  Under SQL three-valued logic cmd LIKE NULL is NULL, never
true, so a row is returned iff name LIKE pattern.  SQLite LIKE is
case-insensitive on ASCII and treats percent and underscore as wildcards;
likeMatch embeds that matcher.
-/

/-- SQLite LIKE on character lists: percent matches any run of characters,
underscore matches exactly one, and letters compare case-insensitively on the
ASCII range (PRAGMA case_sensitive_like defaults to off). -/
def likeMatch : List Char → List Char → Bool
  | [], s => s.isEmpty
  | '%' :: ps, s => (s.tails).any (fun t => likeMatch ps t)
  | '_' :: _, [] => false
  | '_' :: ps, _ :: s2 => likeMatch ps s2
  | _ :: _, [] => false
  | p :: ps, c :: s2 => (p.toLower = c.toLower) && likeMatch ps s2

/-- One row of the aliases table. -/
structure AliasRow where
  name : String
  cmd : String
  updatedAt : Int
deriving DecidableEq, Repr

/-- alias.AliasEntry. -/
structure AliasEntry where
  name : String
  cmd : String
deriving DecidableEq, Repr

/-- SQLAliasStore.QueryAliases: rows whose name matches the LIKE pattern
input ++ percent (the unbound second placeholder never matches, see above),
ordered by updated_at descending, limited to 10, projected to (name, cmd). -/
def queryAliases (table : List AliasRow) (input : String) :
    Except String (List AliasEntry) :=
  let pat := (input ++ "%").data
  let matched := table.filter (fun r => likeMatch pat r.name.data)
  let ordered := sortDescKey (fun r => r.updatedAt) matched
  .ok ((ordered.take 10).map (fun r => { name := r.name, cmd := r.cmd }))

/-- AliasModel.Weight(). -/
def aliasWeight : ℚ := 4/5

/-- AliasModel.Predict: one suggestion per returned alias entry, text the alias
name, score 1, source alias. -/
def aliasPredict (table : List AliasRow) (input : String) :
    Except String (List Suggestion) :=
  match queryAliases table input with
  | .error e => .error e
  | .ok entries =>
    .ok (entries.map (fun e => { text := e.name, source := "alias", score := 1 }))

/-!
Embedding predictor (EmbeddingModel.Predict and embeddingStore.SearchSimilar).
The network embedding call and the libsql ANN retrieval with its cosine
distance are external services: they enter as oracles.  What the source fixes
is embedded literally: the search is called with source history, topK 10 and
threshold one half; the scan loop keeps rows whose score (already computed as
1 - cosine distance by the SQL) is at least the threshold and stamps Source
with the source argument; Predict then multiplies every score by Weight().
-/

/-- EmbeddingModel.Weight(). -/
def embeddingWeight : ℚ := 3/5

/-- The row-scan of embeddingStore.SearchSimilar over the ANN result rows
(text, score) pairs: keep rows with score at least threshold, Source := the
source argument. -/
def searchSimilar (annRows : List (String × ℚ)) (source : String)
    (threshold : ℚ) : List Suggestion :=
  (annRows.filter (fun r => threshold ≤ r.2)).map
    (fun r => { text := r.1, source := source, score := r.2 })

/-- EmbeddingModel.Predict: embed the input (network oracle embedFn), run
SearchSimilar(vec, history, 10, 0.5) over the ANN oracle, then multiply every
score by the 0.6 weight before returning. -/
def embeddingPredict (embedFn : String → Except String (List ℚ))
    (ann : List ℚ → String → Nat → List (String × ℚ)) (input : String) :
    Except String (List Suggestion) :=
  match embedFn input with
  | .error e => .error e
  | .ok vec =>
    let suggs := searchSimilar (ann vec "history" 10) "history" (1/2)
    .ok (suggs.map (fun s => { s with score := s.score * embeddingWeight }))

/-!
History store (internal/store/history.go, SQLHistoryStore.SaveHistory) and
history worker (internal/worker/history.go, RunHistoryWorker).

The history table keyed by the UNIQUE hash column is an association list of
rows.  utils.Hash is SHA-256 hex — an external primitive — so the hash
function is a parameter; every property proved below holds for every hash
function.  SaveHistory runs one transaction: per entry it trims, skips empty
strings, and executes the upsert
  INSERT INTO history(command, hash, count) VALUES (?, ?, 1)
  ON CONFLICT(hash) DO UPDATE SET count = count + 1;
a failing Exec is logged and skipped (the loop continues), and the transaction
is then committed.  The per-statement failure oracle fails models driver-level
Exec errors.
-/

/-- One row of the history table. -/
structure HistRow where
  hash : String
  command : String
  count : Nat
deriving DecidableEq, Repr

/-- The history table, keyed by the UNIQUE hash column. -/
abbrev HistTable := List HistRow

/-- Row lookup by hash. -/
def findRow (t : HistTable) (h : String) : Option HistRow :=
  t.find? (fun r => r.hash = h)

/-- The SQL upsert: on hash conflict increment count (the stored command text
is not touched); otherwise insert (command, hash, 1). -/
def upsertHistory (t : HistTable) (hashv cmd : String) : HistTable :=
  match t with
  | [] => [{ hash := hashv, command := cmd, count := 1 }]
  | r :: rest =>
    if r.hash = hashv then { r with count := r.count + 1 } :: rest
    else r :: upsertHistory rest hashv cmd

/-- One loop iteration of SaveHistory: trim the entry, skip it when empty,
hash the trimmed text and execute the upsert, skipping (after logging) an
entry whose Exec fails. -/
def saveStep (hashFn : String → String) (fails : String → Bool)
    (acc : HistTable) (e : String) : HistTable :=
  if trimSpace e = "" then acc
  else if fails (trimSpace e) then acc
  else upsertHistory acc (hashFn (trimSpace e)) (trimSpace e)

/-- SQLHistoryStore.SaveHistory: trim each entry, skip empties, hash, exec the
upsert, skipping (after logging) any entry whose Exec fails, then commit. -/
def saveHistory (hashFn : String → String) (fails : String → Bool)
    (t : HistTable) (entries : List String) : HistTable :=
  entries.foldl (saveStep hashFn fails) t

/-- The cleaning loop of RunHistoryWorker: trim, keep non-empty strings.
Go additionally checks utf8.ValidString; every Lean string is valid Unicode,
so that check is identically true in the model. -/
def workerClean (entries : List String) : List String :=
  entries.filterMap (fun e =>
    let s := trimSpace e
    if s = "" then none else some s)

/-- RunHistoryWorker: skip when the file has not changed
(currentMtime ≤ storedMtime); otherwise clean the loaded commands, save them,
and update the stored mtime.  The result is the new table and stored mtime. -/
def runHistoryWorker (hashFn : String → String) (fails : String → Bool)
    (storedMtime currentMtime : Int) (loaded : List String) (t : HistTable) :
    HistTable × Int :=
  if currentMtime ≤ storedMtime then (t, storedMtime)
  else (saveHistory hashFn fails t (workerClean loaded), currentMtime)

/-!
History filtering (history/zsh.go: isValidCommand and LoadFilteredZshHistory).
-/

/-- isValidCommand: the per-command filtering heuristics.  Lengths are byte
lengths, as Go len(string).  The brace characters are written with escapes. -/
def isValidCommand (line : String) : Bool :=
  let trimmed := trimSpace line
  if byteLen trimmed < 3 then false
  else if 500 < byteLen trimmed then false
  else
    let fs := goFields trimmed
    if fs.length = 1 &&
        (let first := fs.headD ""
         hasPrefixChars first.data ['-'] || hasPrefixChars first.data ['-', '-'] ||
           2 < countChar first '/' || containsChar first.data '=') then
      false
    else if hasPrefixChars trimmed.data [Char.ofNat 0x7b] ||
        hasPrefixChars trimmed.data ['['] then
      false
    else if hasSuffixChars trimmed.data [':'] then
      false
    else
      true

/-- The filter loop of LoadFilteredZshHistory: keep the commands that pass
isValidCommand.  This function feeds the in-memory learning path; the history
worker does not call it. -/
def filterValidCommands (cmds : List String) : List String :=
  cmds.filter isValidCommand

section HistoryLemmas

/-- When the hash is absent, the upsert appends a fresh row with count 1. -/
theorem upsertHistory_append (t : HistTable) (hashv cmd : String)
    (h : findRow t hashv = none) :
    upsertHistory t hashv cmd = t ++ [{ hash := hashv, command := cmd, count := 1 }] := by
  induction t with
  | nil => rfl
  | cons r rest ih =>
    unfold findRow at h ih
    rw [List.find?_cons] at h
    by_cases hr : r.hash = hashv
    · simp [hr] at h
    · simp only [upsertHistory, if_neg hr]
      have : decide (r.hash = hashv) = false := by simpa using hr
      rw [this] at h
      rw [ih h]
      simp

/-- When the hash is present only in a final fresh row, the upsert increments
that row. -/
theorem upsertHistory_increment (t : HistTable) (hashv cmd cmd2 : String) (n : Nat)
    (h : findRow t hashv = none) :
    upsertHistory (t ++ [{ hash := hashv, command := cmd, count := n }]) hashv cmd2 =
      t ++ [{ hash := hashv, command := cmd, count := n + 1 }] := by
  induction t with
  | nil => simp [upsertHistory]
  | cons r rest ih =>
    unfold findRow at h ih
    rw [List.find?_cons] at h
    by_cases hr : r.hash = hashv
    · simp [hr] at h
    · have : decide (r.hash = hashv) = false := by simpa using hr
      rw [this] at h
      simp only [List.cons_append, upsertHistory, if_neg hr]
      exact congrArg (fun l => r :: l) (ih h)

/-- Row invariant: the stored command text is non-empty and carries no leading
or trailing whitespace. -/
def CleanRow (r : HistRow) : Prop :=
  r.command ≠ "" ∧ trimSpace r.command = r.command

/-- The upsert preserves the clean-row invariant when the inserted text is a
non-empty trimmed string. -/
theorem upsertHistory_cleanRow (t : HistTable) (hashv cmd : String)
    (hcmd : cmd ≠ "" ∧ trimSpace cmd = cmd)
    (ht : ∀ r ∈ t, CleanRow r) :
    ∀ r ∈ upsertHistory t hashv cmd, CleanRow r := by
  induction t with
  | nil =>
    intro r hr
    simp [upsertHistory] at hr
    subst hr
    exact hcmd
  | cons x rest ih =>
    intro r hr
    by_cases hx : x.hash = hashv
    · simp only [upsertHistory, if_pos hx] at hr
      cases hr with
      | head =>
        have := ht x (by simp)
        exact this
      | tail _ hmem => exact ht r (List.mem_cons_of_mem x hmem)
    · simp only [upsertHistory, if_neg hx] at hr
      cases hr with
      | head => exact ht x (by simp)
      | tail _ hmem =>
        exact ih (fun q hq => ht q (List.mem_cons_of_mem x hq)) r hmem

/-- saveHistory preserves the clean-row invariant. -/
theorem saveHistory_cleanRow (hashFn : String → String) (fails : String → Bool)
    (entries : List String) (t : HistTable)
    (ht : ∀ r ∈ t, CleanRow r) :
    ∀ r ∈ saveHistory hashFn fails t entries, CleanRow r := by
  induction entries generalizing t with
  | nil => exact ht
  | cons e rest ih =>
    by_cases he : trimSpace e = ""
    · simp only [saveHistory, List.foldl_cons, saveStep, he, if_pos rfl]
      exact ih t ht
    · by_cases hf : fails (trimSpace e)
      · simp only [saveHistory, List.foldl_cons, saveStep]
        rw [if_neg he, if_pos hf]
        exact ih t ht
      · simp only [saveHistory, List.foldl_cons, saveStep]
        rw [if_neg he, if_neg hf]
        apply ih
        apply upsertHistory_cleanRow
        · exact ⟨he, trimSpace_idem e⟩
        · exact ht

end HistoryLemmas

/-!
Concrete predictors and stores used by witnesses and counterexamples.
-/

/-- A predictor whose Predict always fails. -/
def errModel : SuggestModel :=
  { predict := fun _ => .error "boom", weight := 1 }

/-- A predictor that always returns one suggestion of score 1. -/
def okModel : SuggestModel :=
  { predict := fun _ => .ok [{ text := "x", source := "", score := 1 }], weight := 1 }

/-- A predictor returning the single text alpha with score 1. -/
def alphaModel : SuggestModel :=
  { predict := fun _ => .ok [{ text := "alpha", source := "", score := 1 }], weight := 1 }

/-- A predictor returning the single text beta with score 1. -/
def betaModel : SuggestModel :=
  { predict := fun _ => .ok [{ text := "beta", source := "", score := 1 }], weight := 1 }

/-- A light predictor for the progressive-predict scenario. -/
def lightDemo : SuggestModel :=
  { predict := fun _ => .ok [{ text := "light suggestion", source := "", score := 1/2 }]
    weight := 1 }

/-- A heavy predictor for the progressive-predict scenario. -/
def heavyDemo : SuggestModel :=
  { predict := fun _ => .ok [{ text := "heavy suggestion", source := "", score := 1 }]
    weight := 2 }

/-- The alias store of the spec scenario, most recently updated first. -/
def seededAliases : List AliasRow :=
  [{ name := "gcm", cmd := "git commit", updatedAt := 3 },
   { name := "gst", cmd := "git status", updatedAt := 2 },
   { name := "gaa", cmd := "git add .", updatedAt := 1 }]

/-- An embedding oracle returning a fixed vector. -/
def demoEmbed : String → Except String (List ℚ) := fun _ => .ok [1]

/-- An ANN oracle returning two candidate rows, one below the 0.5 threshold. -/
def demoAnn : List ℚ → String → Nat → List (String × ℚ) :=
  fun _ _ _ => [("git commit", 9/10), ("git push", 2/5)]

/-!
Helper lemmas about the ensemble accumulation.
-/

/-- Whether a predictor's Predict fails on an input. -/
def predictFails (m : SuggestModel) (input : String) : Bool :=
  match m.predict input with
  | .error _ => true
  | .ok _ => false

/-- Folding the one-shot accumulation from an error stays that error. -/
theorem foldl_allStep_error (input : String) (models : List SuggestModel)
    (e : String) : models.foldl (allStep input) (.error e) = .error e := by
  induction models with
  | nil => rfl
  | cons m rest ih => simpa [allStep] using ih

/-- If some registered predictor fails, the one-shot accumulation fails. -/
theorem foldl_allStep_of_fails (input : String) (models : List SuggestModel)
    (hf : ∃ m ∈ models, predictFails m input = true) :
    ∀ sm : ScoreMap, ∃ e, models.foldl (allStep input) (.ok sm) = .error e := by
  induction models with
  | nil => simp at hf
  | cons m rest ih =>
    intro sm
    rcases hf with ⟨m2, hmem, hfail⟩
    rw [List.foldl_cons]
    cases hm : m.predict input with
    | error e =>
      refine ⟨e, ?_⟩
      rw [show allStep input (.ok sm) m = .error e by simp [allStep, hm]]
      exact foldl_allStep_error input rest e
    | ok suggs =>
      rw [show allStep input (.ok sm) m = .ok (mergeSuggestions sm m.weight suggs)
        by simp [allStep, hm]]
      rcases List.mem_cons.mp hmem with h2 | h2
      · subst h2
        rw [predictFails, hm] at hfail
        cases hfail
      · exact ih ⟨m2, h2, hfail⟩ _

/-- Failing predictors contribute nothing to a tier accumulation: the fold is
the fold over the succeeding predictors only. -/
theorem foldl_swallowStep_filter (input : String) (models : List SuggestModel) :
    ∀ init : ScoreMap,
      models.foldl (swallowStep input) init =
        (models.filter fun m => !(predictFails m input)).foldl
          (swallowStep input) init := by
  induction models with
  | nil => intro init; rfl
  | cons m rest ih =>
    intro init
    cases hm : m.predict input with
    | error e =>
      have h1 : predictFails m input = true := by simp [predictFails, hm]
      rw [List.foldl_cons,
        show swallowStep input init m = init by simp [swallowStep, hm]]
      rw [show (m :: rest).filter (fun m => !(predictFails m input)) =
        rest.filter (fun m => !(predictFails m input)) by simp [List.filter, h1]]
      exact ih init
    | ok suggs =>
      have h1 : predictFails m input = false := by simp [predictFails, hm]
      rw [List.foldl_cons,
        show swallowStep input init m = mergeSuggestions init m.weight suggs
          by simp [swallowStep, hm]]
      rw [show (m :: rest).filter (fun m => !(predictFails m input)) =
        m :: rest.filter (fun m => !(predictFails m input))
          by simp [List.filter, h1]]
      rw [List.foldl_cons,
        show swallowStep input init m = mergeSuggestions init m.weight suggs
          by simp [swallowStep, hm]]
      exact ih _

/-- When every registered predictor succeeds, the one-shot accumulation agrees
with the error-swallowing accumulation. -/
theorem foldl_allStep_of_ok (input : String) (models : List SuggestModel)
    (h : ∀ m ∈ models, predictFails m input = false) :
    ∀ sm : ScoreMap,
      models.foldl (allStep input) (.ok sm) =
        .ok (models.foldl (swallowStep input) sm) := by
  induction models with
  | nil => intro sm; rfl
  | cons m rest ih =>
    intro sm
    cases hm : m.predict input with
    | error e =>
      have := h m (List.mem_cons_self m rest)
      rw [predictFails, hm] at this
      cases this
    | ok suggs =>
      rw [List.foldl_cons, List.foldl_cons,
        show allStep input (.ok sm) m = .ok (mergeSuggestions sm m.weight suggs)
          by simp [allStep, hm],
        show swallowStep input sm m = mergeSuggestions sm m.weight suggs
          by simp [swallowStep, hm]]
      exact ih (fun q hq => h q (List.mem_cons_of_mem m hq)) _

/-!
Claim theorems.
-/

/-- C9: for every input, one progressive-predict call emits at most two ranked
lists before the stream closes; when two are emitted, the first is the
light-tier ranking (computed from light predictors only) and the second the
heavy-tier ranking (computed from heavy predictors only, merged into a score
map that starts empty), and the light list comes first. -/
theorem C9_progressive_emission_protocol (light heavy : List SuggestModel)
    (input : String) :
    (nextPredictEmissions light heavy input).length ≤ 2 ∧
    (light ≠ [] → heavy ≠ [] →
      nextPredictEmissions light heavy input =
        [executeTier light input, executeTier heavy input]) ∧
    ((nextPredictEmissions light heavy input).length = 2 →
      nextPredictEmissions light heavy input =
        [rankSuggestions (accumSwallow light input),
         rankSuggestions (accumSwallow heavy input)]) := by
  unfold nextPredictEmissions executeTier
  by_cases hl : light.isEmpty
  · by_cases hh : heavy.isEmpty
    · simp [hl, hh, List.isEmpty_iff.mp hl]
    · simp [hl, hh, List.isEmpty_iff.mp hl]
  · by_cases hh : heavy.isEmpty
    · simp [hl, hh, List.isEmpty_iff.mp hh]
    · simp [hl, hh]

/-- Witness for C9 at the spec scenario of one light and one heavy
predictor. -/
theorem C9_progressive_emission_protocol_witness :
    nextPredictEmissions [lightDemo] [heavyDemo] "gi" =
      [executeTier [lightDemo] "gi", executeTier [heavyDemo] "gi"] :=
  (C9_progressive_emission_protocol [lightDemo] [heavyDemo] "gi").2.1
    (List.cons_ne_nil _ _) (List.cons_ne_nil _ _)

/-- C10: SaveHistory trims every entry before hashing and storing it: an entry
that is empty after trimming is skipped entirely inside its batch; two entries
with the same trimmed text are hashed from that same trimmed text and
accumulate into a single row of count 2 when the hash is fresh; and every row
the call stores has non-empty trimmed command text (so no stored command
carries surrounding whitespace). -/
theorem C10_save_history_trimming (hashFn : String → String)
    (fails : String → Bool) (t : HistTable) (es1 es2 entries : List String)
    (e e1 e2 : String) :
    (trimSpace e = "" →
      saveHistory hashFn fails t (es1 ++ e :: es2) =
        saveHistory hashFn fails t (es1 ++ es2)) ∧
    (∀ c, trimSpace e1 = c → trimSpace e2 = c → c ≠ "" → fails c = false →
      findRow t (hashFn c) = none →
      saveHistory hashFn fails t [e1, e2] =
        t ++ [{ hash := hashFn c, command := c, count := 2 }]) ∧
    ((∀ r ∈ t, CleanRow r) →
      ∀ r ∈ saveHistory hashFn fails t entries, CleanRow r) := by
  refine ⟨?_, ?_, ?_⟩
  · intro he
    unfold saveHistory
    rw [List.foldl_append, List.foldl_append, List.foldl_cons]
    rw [show saveStep hashFn fails (List.foldl (saveStep hashFn fails) t es1) e =
      List.foldl (saveStep hashFn fails) t es1 by simp [saveStep, he]]
  · intro c he1 he2 hc hf hfind
    unfold saveHistory
    rw [List.foldl_cons, List.foldl_cons, List.foldl_nil]
    unfold saveStep
    rw [he1, he2]
    rw [if_neg hc, if_neg hc]
    rw [if_neg (by simp [hf]), if_neg (by simp [hf])]
    rw [upsertHistory_append t (hashFn c) c hfind]
    exact upsertHistory_increment t (hashFn c) c c 1 hfind
  · exact saveHistory_cleanRow hashFn fails entries t

/-- Witness for C10: the identity hash, no statement failures, a batch with a
whitespace-only entry and two entries equal after trimming. -/
theorem C10_save_history_trimming_witness :
    saveHistory (fun s => s) (fun _ => false) [] (["ls"] ++ "   " :: ["pwd"]) =
      saveHistory (fun s => s) (fun _ => false) [] (["ls"] ++ ["pwd"]) ∧
    saveHistory (fun s => s) (fun _ => false) [] [" git status", "git status  "] =
      [] ++ [{ hash := "git status", command := "git status", count := 2 }] ∧
    ∀ r ∈ saveHistory (fun s => s) (fun _ => false) [] [" ls -la "], CleanRow r := by
  refine ⟨?_, ?_, ?_⟩
  · exact (C10_save_history_trimming (fun s => s) (fun _ => false) [] ["ls"]
      ["pwd"] [] "   " "" "").1 (by decide)
  · exact (C10_save_history_trimming (fun s => s) (fun _ => false) [] [] [] []
      "x" " git status" "git status  ").2.1 "git status" (by decide) (by decide)
      (by decide) rfl rfl
  · exact (C10_save_history_trimming (fun s => s) (fun _ => false) [] [] []
      [" ls -la "] "x" "" "").2.2 (by intro r hr; cases hr)

/-- C1, counterexample: with one failing and one succeeding predictor
registered, the one-shot Ensemble.Predict returns the predictor's error — it
does not return the merged ranking of the successful predictor, which would be
the single suggestion x. -/
theorem C1_counterexample :
    ensemblePredict [errModel, okModel] "g" = .error "boom" ∧
    rankSuggestions (accumSwallow [okModel] "g") =
      [{ text := "x", source := "", score := 1 }] ∧
    (Except.error "boom" : Except String (List Suggestion)) ≠
      .ok [{ text := "x", source := "", score := 1 }] := by
  refine ⟨by decide, ?_, by decide⟩
  norm_num [rankSuggestions, accumSwallow, swallowStep, okModel,
    mergeSuggestions, addScore, sortDescKey, insertDescKey]

/-- C1, amended: in the one-shot Ensemble.Predict a predictor error is not
swallowed — if any registered predictor fails, the whole call returns an error
and no ranking.  Error swallowing holds only in the progressive tier
executors, whose g.Wait() result is discarded: there a failing predictor
contributes nothing and the tier output equals the output over the succeeding
predictors alone; and when every predictor succeeds the one-shot call returns
the merged ranking. -/
theorem C1_one_shot_error_propagation (models : List SuggestModel)
    (input : String) :
    ((∃ m ∈ models, predictFails m input = true) →
      ∃ e, ensemblePredict models input = .error e) ∧
    executeTier models input =
      executeTier (models.filter fun m => !(predictFails m input)) input ∧
    ((∀ m ∈ models, predictFails m input = false) →
      ensemblePredict models input = .ok (executeTier models input)) := by
  refine ⟨?_, ?_, ?_⟩
  · intro hf
    rcases foldl_allStep_of_fails input models hf [] with ⟨e, he⟩
    refine ⟨e, ?_⟩
    unfold ensemblePredict accumAll
    rw [he]
  · unfold executeTier accumSwallow
    rw [foldl_swallowStep_filter input models []]
  · intro h
    unfold ensemblePredict accumAll executeTier accumSwallow
    rw [foldl_allStep_of_ok input models h []]

/-- Witness for C1 amended: the failing predictor makes the one-shot call
error, and the tier executor ignores it. -/
theorem C1_one_shot_error_propagation_witness :
    (∃ e, ensemblePredict [errModel, okModel] "g" = .error e) ∧
    executeTier [errModel, okModel] "g" =
      executeTier ([errModel, okModel].filter fun m => !(predictFails m "g"))
        "g" :=
  ⟨(C1_one_shot_error_propagation [errModel, okModel] "g").1
      ⟨errModel, List.mem_cons_self _ _, by decide⟩,
    (C1_one_shot_error_propagation [errModel, okModel] "g").2.1⟩

/-- C5, counterexample: on the empty prefix MarkovModel.Predict returns the
error input-is-empty rather than an empty list, and the one-shot ensemble
call with the Markov predictor registered consequently fails rather than
returning an empty list. -/
theorem C5_counterexample :
    markovPredict [] "" = .error markovErrorMsg ∧
    ensemblePredict [markovModel []] "" = .error markovErrorMsg ∧
    (Except.error markovErrorMsg : Except String (List Suggestion)) ≠
      .ok [] := by
  refine ⟨by decide, by decide, by decide⟩

/-- C5, amended: for a prefix with no tokens (empty or whitespace-only) the
Markov predictor returns the error input-is-empty, and the one-shot ensemble
predict with the Markov predictor registered returns that error instead of an
empty list; a prefix whose last token is unseen does yield an empty list
without error. -/
theorem C5_markov_empty_input (trans : Transitions) (input : String) :
    (goFields input = [] → markovPredict trans input = .error markovErrorMsg) ∧
    (goFields input = [] →
      ensemblePredict [markovModel trans] input = .error markovErrorMsg) ∧
    (∀ tok, (goFields input).getLast? = some tok →
      List.lookup tok trans = none → markovPredict trans input = .ok []) ∧
    goFields "" = [] ∧ goFields "   " = [] := by
  refine ⟨?_, ?_, ?_, by decide, by decide⟩
  · intro h
    unfold markovPredict
    rw [h]
    rfl
  · intro h
    have hm : markovPredict trans input = .error markovErrorMsg := by
      unfold markovPredict
      rw [h]
      rfl
    unfold ensemblePredict accumAll
    rw [List.foldl_cons,
      show allStep input (.ok []) (markovModel trans) = .error markovErrorMsg
        by simp [allStep, markovModel, hm]]
    rfl
  · intro tok htok hlook
    unfold markovPredict
    simp [htok, hlook]

/-- Witness for C5 amended at a concrete transition table. -/
theorem C5_markov_empty_input_witness :
    markovPredict [("git", [("commit", 2)])] "" = .error markovErrorMsg ∧
    ensemblePredict [markovModel [("git", [("commit", 2)])]] "   " =
      .error markovErrorMsg ∧
    markovPredict [("git", [("commit", 2)])] "npm" = .ok [] :=
  ⟨(C5_markov_empty_input [("git", [("commit", 2)])] "").1 (by decide),
    (C5_markov_empty_input [("git", [("commit", 2)])] "   ").2.1 (by decide),
    (C5_markov_empty_input [("git", [("commit", 2)])] "npm").2.2.1 "npm"
      (by decide) (by decide)⟩

/-- C6, counterexample: the merged score map lists alpha before beta in
first-seen order, yet iterating the map in the equally admissible order beta,
alpha (Go map iteration order is unspecified) makes the ranking return the
tied entries as beta, alpha — not in first-seen order. -/
theorem C6_counterexample :
    accumAll [alphaModel, betaModel] "x" = .ok [("alpha", 1), ("beta", 1)] ∧
    List.Perm [(("beta" : String), (1 : ℚ)), ("alpha", 1)]
      [("alpha", 1), ("beta", 1)] ∧
    rankSuggestions [("beta", 1), ("alpha", 1)] =
      [{ text := "beta", source := "", score := 1 },
       { text := "alpha", source := "", score := 1 }] ∧
    ([{ text := "beta", source := "", score := (1 : ℚ) },
      { text := "alpha", source := "", score := 1 }] : List Suggestion) ≠
      [{ text := "alpha", source := "", score := 1 },
       { text := "beta", source := "", score := 1 }] := by
  refine ⟨?_, List.Perm.swap _ _ _, ?_, by decide⟩
  · norm_num [accumAll, allStep, alphaModel, betaModel, mergeSuggestions,
      addScore]
    decide
  · norm_num [rankSuggestions, sortDescKey, insertDescKey]

/-- C6, amended: every list an ensemble call returns — the one-shot ranking
and each progressive emission — is sorted by non-increasing merged score and
is a permutation of the score-map entries; the order among entries with equal
scores is not specified (it follows the map iteration order). -/
theorem C6_ranking_sorted (entries : ScoreMap) :
    List.Pairwise (fun a b => b.score ≤ a.score) (rankSuggestions entries) ∧
    List.Perm (rankSuggestions entries)
      (entries.map fun e => { text := e.1, source := "", score := e.2 }) ∧
    (∀ light heavy input l, l ∈ nextPredictEmissions light heavy input →
      List.Pairwise (fun a b => b.score ≤ a.score) l) ∧
    (∀ models input res, ensemblePredict models input = .ok res →
      List.Pairwise (fun a b => b.score ≤ a.score) res) := by
  have hgen : ∀ em : ScoreMap,
      List.Pairwise (fun a b => b.score ≤ a.score) (rankSuggestions em) := by
    intro em
    unfold rankSuggestions
    rw [List.pairwise_map]
    exact sortDescKey_pairwise (fun e => e.2) em
  refine ⟨hgen entries, ?_, ?_, ?_⟩
  · exact (sortDescKey_perm (fun e => e.2) entries).map _
  · intro light heavy input l hl
    unfold nextPredictEmissions at hl
    rcases List.mem_append.mp hl with h | h
    · by_cases hc : light.isEmpty
      · rw [if_pos hc] at h
        cases h
      · rw [if_neg hc] at h
        have h2 := List.mem_singleton.mp h
        subst h2
        exact hgen _
    · by_cases hc : heavy.isEmpty
      · rw [if_pos hc] at h
        cases h
      · rw [if_neg hc] at h
        have h2 := List.mem_singleton.mp h
        subst h2
        exact hgen _
  · intro models input res hres
    unfold ensemblePredict at hres
    cases hacc : accumAll models input with
    | error e =>
      rw [hacc] at hres
      cases hres
    | ok sm =>
      rw [hacc] at hres
      injection hres with h
      subst h
      exact hgen _

/-- Witness for C6 amended: the one-shot ranking of a single predictor is
sorted. -/
theorem C6_ranking_sorted_witness :
    List.Pairwise (fun (a b : Suggestion) => b.score ≤ a.score)
      [{ text := "x", source := "", score := 1 }] :=
  (C6_ranking_sorted []).2.2.2 [okModel] "g"
    [{ text := "x", source := "", score := 1 }]
    (by norm_num [ensemblePredict, accumAll, allStep, okModel,
      mergeSuggestions, addScore, rankSuggestions, sortDescKey, insertDescKey])

/-- C7, counterexample: with a statement-failure on the entry bb, SaveHistory
still commits the upserts of aa and cc — the history table is not left as it
was before the call, so a partial failure does not roll the batch back. -/
theorem C7_counterexample :
    saveHistory (fun s => s) (fun c => c == "bb") [] ["aa", "bb", "cc"] =
      [{ hash := "aa", command := "aa", count := 1 },
       { hash := "cc", command := "cc", count := 1 }] ∧
    [{ hash := "aa", command := "aa", count := 1 },
     { hash := "cc", command := "cc", count := 1 }] ≠ ([] : HistTable) := by
  refine ⟨by decide, by decide⟩

/-- C7, amended: SaveHistory runs in one transaction but a failing per-command
upsert is logged and skipped, not rolled back: the call behaves exactly like a
failure-free call over the entries whose trimmed text does not fail, and when
no entry fails it equals the failure-free run of the whole batch. -/
theorem C7_per_statement_failures_skipped (hashFn : String → String)
    (fails : String → Bool) (t : HistTable) (entries : List String) :
    saveHistory hashFn fails t entries =
      saveHistory hashFn (fun _ => false) t
        (entries.filter fun e => !(fails (trimSpace e))) ∧
    ((∀ e ∈ entries, fails (trimSpace e) = false) →
      saveHistory hashFn fails t entries =
        saveHistory hashFn (fun _ => false) t entries) := by
  have main : ∀ es (t0 : HistTable),
      saveHistory hashFn fails t0 es =
        saveHistory hashFn (fun _ => false) t0
          (es.filter fun e => !(fails (trimSpace e))) := by
    intro es
    induction es with
    | nil => intro t0; rfl
    | cons e rest ih =>
      intro t0
      by_cases hf : fails (trimSpace e)
      · have hfilter : (e :: rest).filter (fun e => !(fails (trimSpace e))) =
            rest.filter (fun e => !(fails (trimSpace e))) := by
          simp [List.filter, hf]
        rw [hfilter]
        by_cases he : trimSpace e = ""
        · rw [show saveHistory hashFn fails t0 (e :: rest) =
              saveHistory hashFn fails t0 rest by
            simp [saveHistory, List.foldl_cons, saveStep, he]]
          exact ih t0
        · rw [show saveHistory hashFn fails t0 (e :: rest) =
              saveHistory hashFn fails t0 rest by
            simp only [saveHistory, List.foldl_cons, saveStep]
            rw [if_neg he, if_pos hf]]
          exact ih t0
      · have hfilter : (e :: rest).filter (fun e => !(fails (trimSpace e))) =
            e :: rest.filter (fun e => !(fails (trimSpace e))) := by
          simp [List.filter, hf]
        rw [hfilter]
        by_cases he : trimSpace e = ""
        · rw [show saveHistory hashFn fails t0 (e :: rest) =
              saveHistory hashFn fails t0 rest by
            simp [saveHistory, List.foldl_cons, saveStep, he]]
          rw [show saveHistory hashFn (fun _ => false) t0
                (e :: rest.filter fun e => !(fails (trimSpace e))) =
              saveHistory hashFn (fun _ => false) t0
                (rest.filter fun e => !(fails (trimSpace e))) by
            simp [saveHistory, List.foldl_cons, saveStep, he]]
          exact ih t0
        · rw [show saveHistory hashFn fails t0 (e :: rest) =
              saveHistory hashFn fails
                (upsertHistory t0 (hashFn (trimSpace e)) (trimSpace e)) rest by
            simp only [saveHistory, List.foldl_cons, saveStep]
            rw [if_neg he, if_neg hf]]
          rw [show saveHistory hashFn (fun _ => false) t0
                (e :: rest.filter fun e => !(fails (trimSpace e))) =
              saveHistory hashFn (fun _ => false)
                (upsertHistory t0 (hashFn (trimSpace e)) (trimSpace e))
                (rest.filter fun e => !(fails (trimSpace e))) by
            simp only [saveHistory, List.foldl_cons, saveStep]
            rw [if_neg he, if_neg (by simp)]]
          exact ih _
  refine ⟨main entries t, ?_⟩
  intro hall
  rw [main entries t]
  have : entries.filter (fun e => !(fails (trimSpace e))) = entries := by
    apply List.filter_eq_self.mpr
    intro e he
    simp [hall e he]
  rw [this]

/-- Witness for C7 amended: a failure-free batch equals its own failure-free
run. -/
theorem C7_per_statement_failures_skipped_witness :
    saveHistory (fun s => s) (fun _ => false) [] ["aa", "bb"] =
      saveHistory (fun s => s) (fun _ => false) [] ["aa", "bb"] :=
  (C7_per_statement_failures_skipped (fun s => s) (fun _ => false) []
    ["aa", "bb"]).2 (by intro e he; rfl)

/-- C8, counterexample: a history-ingestion cycle persists the two-character
command ls via SaveHistory even though isValidCommand rejects it — the
worker's cleaning only trims and drops empties, it does not apply the
filtering rules. -/
theorem C8_counterexample :
    runHistoryWorker (fun s => s) (fun _ => false) 0 1 ["ls"] [] =
      ([{ hash := "ls", command := "ls", count := 1 }], 1) ∧
    isValidCommand "ls" = false := by
  refine ⟨by decide, by decide⟩

/-- C8, amended: a history-ingestion cycle persists exactly the loaded strings
after trimming, dropping empty (and, in Go, non-UTF-8) ones — every stored
command is non-empty and trimmed, but the isValidCommand rules (length,
flag/path/JSON heuristics, trailing colon) are applied only by
LoadFilteredZshHistory, which feeds the in-memory learning path and is not on
the worker's persistence path. -/
theorem C8_worker_skips_validity_filter (hashFn : String → String)
    (fails : String → Bool) (storedM currentM : Int) (loaded : List String)
    (t : HistTable) :
    ((∀ r ∈ t, CleanRow r) →
      ∀ r ∈ (runHistoryWorker hashFn fails storedM currentM loaded t).1,
        CleanRow r) ∧
    (∀ s ∈ workerClean loaded, s ≠ "" ∧ trimSpace s = s) ∧
    (∀ c ∈ filterValidCommands loaded, isValidCommand c = true) ∧
    (storedM < currentM →
      runHistoryWorker hashFn fails storedM currentM loaded t =
        (saveHistory hashFn fails t (workerClean loaded), currentM)) := by
  refine ⟨?_, ?_, ?_, ?_⟩
  · intro ht r hr
    unfold runHistoryWorker at hr
    by_cases hm : currentM ≤ storedM
    · rw [if_pos hm] at hr
      exact ht r hr
    · rw [if_neg hm] at hr
      exact saveHistory_cleanRow hashFn fails (workerClean loaded) t ht r hr
  · intro s hs
    unfold workerClean at hs
    rcases List.mem_filterMap.mp hs with ⟨e, _, hmap⟩
    by_cases hz : trimSpace e = ""
    · simp [hz] at hmap
    · simp [hz] at hmap
      subst hmap
      exact ⟨hz, trimSpace_idem e⟩
  · intro c hc
    exact List.of_mem_filter hc
  · intro hlt
    unfold runHistoryWorker
    rw [if_neg (not_le.mpr hlt)]

/-- Witness for C8 amended at a concrete one-entry history. -/
theorem C8_worker_skips_validity_filter_witness :
    (∀ r ∈ (runHistoryWorker (fun s => s) (fun _ => false) 0 1 [" ls -la "]
        []).1, CleanRow r) ∧
    runHistoryWorker (fun s => s) (fun _ => false) 0 1 [" ls -la "] [] =
      (saveHistory (fun s => s) (fun _ => false) []
        (workerClean [" ls -la "]), 1) :=
  ⟨(C8_worker_skips_validity_filter (fun s => s) (fun _ => false) 0 1
      [" ls -la "] []).1 (by intro r hr; cases hr),
    (C8_worker_skips_validity_filter (fun s => s) (fun _ => false) 0 1
      [" ls -la "] []).2.2.2 (by decide)⟩

/-- C3, counterexample: the alias query matches names with SQL LIKE, which is
case-insensitive on ASCII, so for the input G it returns the alias gcm whose
name does not begin with G. -/
theorem C3_counterexample :
    queryAliases [{ name := "gcm", cmd := "git commit", updatedAt := 3 }]
      "G" = .ok [{ name := "gcm", cmd := "git commit" }] ∧
    hasPrefixChars "gcm".data "G".data = false := by
  refine ⟨by decide, by decide⟩

/-- C3, amended: query_aliases(p) returns at most 10 stored entries ordered by
updated_at descending, and every returned entry's name matches the LIKE
pattern p followed by the percent wildcard (ASCII-case-insensitively, with
percent and underscore in p acting as wildcards; the second, unbound
placeholder of the SQL never matches, so the cmd column is not consulted);
for a wildcard-free, case-exact prefix this is exactly a name-prefix match.
With the aliases gcm, gst, gaa stored and prefix g, it returns exactly those
three entries, which the alias predictor turns into one suggestion each with
text the alias name and score 1. -/
theorem C3_alias_query_like (table : List AliasRow) (input : String) :
    (∃ rows : List AliasRow,
      queryAliases table input =
        .ok (rows.map fun r => { name := r.name, cmd := r.cmd }) ∧
      rows.length ≤ 10 ∧
      (∀ r ∈ rows, r ∈ table ∧
        likeMatch (input ++ "%").data r.name.data = true) ∧
      List.Pairwise (fun a b => b.updatedAt ≤ a.updatedAt) rows) ∧
    queryAliases seededAliases "g" =
      .ok [{ name := "gcm", cmd := "git commit" },
           { name := "gst", cmd := "git status" },
           { name := "gaa", cmd := "git add ." }] ∧
    aliasPredict seededAliases "g" =
      .ok [{ text := "gcm", source := "alias", score := 1 },
           { text := "gst", source := "alias", score := 1 },
           { text := "gaa", source := "alias", score := 1 }] := by
  refine ⟨?_, by decide, by decide⟩
  refine ⟨(sortDescKey (fun r : AliasRow => r.updatedAt)
    (table.filter fun r => likeMatch (input ++ "%").data r.name.data)).take 10,
    rfl, ?_, ?_, ?_⟩
  · exact List.length_take_le 10 _
  · intro r hr
    have h1 := List.mem_of_mem_take hr
    have h2 :=
      (sortDescKey_perm (fun r : AliasRow => r.updatedAt) _).mem_iff.mp h1
    have h3 := List.mem_filter.mp h2
    exact ⟨h3.1, h3.2⟩
  · exact
      (sortDescKey_pairwise (fun r : AliasRow => r.updatedAt) _).sublist
        (List.take_sublist 10 _)

/-- Witness for C3 amended at the seeded store. -/
theorem C3_alias_query_like_witness :
    ∃ rows : List AliasRow,
      queryAliases seededAliases "g" =
        .ok (rows.map fun r => { name := r.name, cmd := r.cmd }) ∧
      rows.length ≤ 10 ∧
      (∀ r ∈ rows, r ∈ seededAliases ∧
        likeMatch ("g%").data r.name.data = true) ∧
      List.Pairwise (fun a b => b.updatedAt ≤ a.updatedAt) rows :=
  (C3_alias_query_like seededAliases "g").1

/-- C4, counterexample: the embedding predictor does not return the search
scores unchanged with source embedding: for a raw similarity 9/10 it returns
score 27/50 (the 0.6 weight is applied inside Predict) and source history
(the source argument of the search, not the predictor name). -/
theorem C4_counterexample :
    embeddingPredict demoEmbed demoAnn "git" =
      .ok [{ text := "git commit", source := "history", score := 27/50 }] ∧
    (27/50 : ℚ) ≠ 9/10 ∧
    ("history" : String) ≠ "embedding" := by
  refine ⟨?_, by norm_num, by decide⟩
  norm_num [embeddingPredict, demoEmbed, demoAnn, searchSimilar,
    embeddingWeight]

/-- C4, amended: Predict requests the vector for the input and calls the
similarity search with source history, topK 10 and threshold 0.5; rows with
score (equal to 1 minus the cosine distance, computed by the SQL) below 0.5
are dropped; the returned pairs carry the scores multiplied by the 0.6 weight
and source tag history, and the ensemble then multiplies by the 0.6 weight a
second time when merging.  An embedding-service error yields an error. -/
theorem C4_embedding_predict_weights
    (embedFn : String → Except String (List ℚ))
    (ann : List ℚ → String → Nat → List (String × ℚ)) (input : String)
    (vec : List ℚ) :
    (embedFn input = .ok vec →
      embeddingPredict embedFn ann input =
        .ok (((ann vec "history" 10).filter fun r => (1/2 : ℚ) ≤ r.2).map
          fun r => { text := r.1, source := "history",
                     score := r.2 * embeddingWeight })) ∧
    (∀ e, embedFn input = .error e →
      embeddingPredict embedFn ann input = .error e) ∧
    embeddingWeight = 3/5 ∧
    ensemblePredict
      [{ predict := embeddingPredict demoEmbed demoAnn,
         weight := embeddingWeight }] "git" =
      .ok [{ text := "git commit", source := "",
             score := 9/10 * embeddingWeight * embeddingWeight }] := by
  refine ⟨?_, ?_, rfl, ?_⟩
  · intro h
    unfold embeddingPredict
    rw [h]
    simp [searchSimilar, List.map_map, Function.comp]
  · intro e h
    unfold embeddingPredict
    rw [h]
  · norm_num [ensemblePredict, accumAll, allStep, embeddingPredict, demoEmbed,
      demoAnn, searchSimilar, embeddingWeight, mergeSuggestions, addScore,
      rankSuggestions, sortDescKey, insertDescKey]

/-- Witness for C4 amended at the concrete oracles. -/
theorem C4_embedding_predict_weights_witness :
    embeddingPredict demoEmbed demoAnn "git" =
      .ok (((demoAnn [1] "history" 10).filter fun r => (1/2 : ℚ) ≤ r.2).map
        fun r => { text := r.1, source := "history",
                   score := r.2 * embeddingWeight }) :=
  (C4_embedding_predict_weights demoEmbed demoAnn "git" [1]).1 rfl

end Ghosttype
